import Mathlib

/-!
# Verification of the `mod_generator` export scripts

A shallow embedding of the four scripting-host export scripts in
`src/umt_scripts` (`ExportSoundMap.csx`, its sprite section, `ExportObjectMap.csx`,
`ExportObjectTree.csx`) together with the path helper `Paths.csx`, and proofs of
the specification's claims about them.

The in-memory asset records (`Data.Sounds`, `Data.Sprites`, `Data.GameObjects`)
are modelled as lists of `Record`; the C# `Dictionary` / `SortedDictionary`
outputs are modelled as association lists in their iteration order, which is the
order in which `System.Text.Json` serializes them.
-/

namespace ModGen

/-- An asset record as the scripts see it: a display name (`x.Name.Content`) and,
for game objects, an optional parent reference (`o.ParentId`). -/
inductive Record where
  | mk : String → Option Record → Record

def Record.decEq : (a b : Record) → Decidable (a = b)
  | .mk n (some p), .mk m (some q) =>
    match String.decEq n m, Record.decEq p q with
    | isTrue h1, isTrue h2 => isTrue (by rw [h1, h2])
    | isFalse h1, _ => isFalse (fun h => by simp only [Record.mk.injEq] at h; exact h1 h.1)
    | _, isFalse h2 =>
        isFalse (fun h => by
          simp only [Record.mk.injEq, Option.some.injEq] at h
          exact h2 h.2)
  | .mk n none, .mk m none =>
    match String.decEq n m with
    | isTrue h1 => isTrue (by rw [h1])
    | isFalse h1 => isFalse (fun h => by simp only [Record.mk.injEq] at h; exact h1 h.1)
  | .mk _ (some _), .mk _ none => isFalse (fun h => by simp at h)
  | .mk _ none, .mk _ (some _) => isFalse (fun h => by simp at h)

instance : DecidableEq Record := Record.decEq

/-- `x.Name.Content`. -/
def Record.name : Record → String
  | .mk n _ => n

/-- `o.ParentId` (null modelled as `none`). -/
def Record.parent : Record → Option Record
  | .mk _ p => p

/-! ## Decimal keys

Modelled from the spec: .NET `Int32.ToString()` on the non-negative values used
by the scripts (`x.Index.ToString()`) prints the decimal digit string. -/

/-- The decimal digits of `n`, most significant first, prepended to `acc`.
The fuel argument only drives the recursion; `n` itself is always enough. -/
def natDigitsAux : Nat → Nat → List Char → List Char
  | 0, n, acc => Nat.digitChar n :: acc
  | fuel + 1, n, acc =>
      if n < 10 then Nat.digitChar n :: acc
      else natDigitsAux fuel (n / 10) (Nat.digitChar (n % 10) :: acc)

/-- The decimal digits of `n`, most significant first. -/
def natDigits (n : Nat) : List Char := natDigitsAux n n []

/-- Modelled from the spec: `x.Index.ToString()` — the decimal string of `n`. -/
def natToStr (n : Nat) : String := ⟨natDigits n⟩

/-- Decimal value of a digit list on top of `a` (used only to invert `natDigits`). -/
def decFrom (a : Nat) (l : List Char) : Nat :=
  l.foldl (fun a c => a * 10 + (c.toNat - 48)) a

theorem toNat_digitChar {d : Nat} (h : d < 10) : (Nat.digitChar d).toNat = 48 + d := by
  revert h
  revert d
  decide

theorem decFrom_natDigitsAux (fuel : Nat) : ∀ n acc, n ≤ fuel → n < 10 * (fuel + 1) →
    decFrom 0 (natDigitsAux fuel n acc) = decFrom n acc := by
  induction fuel with
  | zero =>
    intro n acc hn _
    simp only [natDigitsAux, decFrom, List.foldl_cons, toNat_digitChar (by omega : n < 10)]
    congr 1
    omega
  | succ fuel ih =>
    intro n acc hn hbound
    rw [natDigitsAux]
    by_cases h : n < 10
    · simp only [h, if_pos, decFrom, List.foldl_cons, toNat_digitChar h]
      congr 1
      omega
    · simp only [h, if_neg, not_false_iff]
      rw [ih (n / 10) _ (by omega) (by omega)]
      simp only [decFrom, List.foldl_cons, toNat_digitChar (Nat.mod_lt _ (by omega) : n % 10 < 10)]
      congr 1
      omega

theorem decFrom_natDigits (n : Nat) : decFrom 0 (natDigits n) = n := by
  rw [natDigits, decFrom_natDigitsAux n n [] (le_refl n) (by omega)]
  rfl

theorem natToStr_injective : Function.Injective natToStr := by
  intro m n h
  have hd : natDigits m = natDigits n := congrArg String.data h
  have := decFrom_natDigits m
  rw [hd, decFrom_natDigits] at this
  exact this.symm

/-! ## The Name Index Projector

`ExportSoundMap.csx` lines 23–29 (and verbatim copies in the sprite and game
object exporters):

```
var mapping = Data.Sounds
    .Select((snd, index) => new { Index = index, Name = snd.Name.Content })
    .OrderBy(x => x.Index);
var exportData = mapping.ToDictionary(x => x.Index.ToString(), x => x.Name);
```
-/

/-- `.Select((snd, index) => new { Index = index, Name = snd.Name.Content })`:
pair every record with its zero-based position. -/
def selectWithIndex (S : List Record) : List (Nat × String) :=
  S.enum.map (fun p => (p.1, p.2.name))

/-- LINQ `OrderBy(x => x.Index)`: a stable sort on the projected key, modelled by
insertion sort (which is stable). -/
def orderByIndex (l : List (Nat × String)) : List (Nat × String) :=
  List.insertionSort (fun a b => a.1 ≤ b.1) l

/-- `.ToDictionary(x => x.Index.ToString(), x => x.Name)`: an add-only C#
`Dictionary` enumerates in insertion order, so it is modelled as the association
list built in that order. (`ToDictionary` would throw on a duplicate key; the
keys here are the distinct indices, so that path is unreachable.) -/
def toDictionary (l : List (Nat × String)) : List (String × String) :=
  l.map (fun x => (natToStr x.1, x.2))

/-- The `mapping` query of `ExportSoundMap.csx` (sounds section). -/
def soundMapping (sounds : List Record) : List (Nat × String) :=
  orderByIndex (selectWithIndex sounds)

/-- The `exportData` dictionary of `ExportSoundMap.csx` (sounds section). -/
def soundExportData (sounds : List Record) : List (String × String) :=
  toDictionary (soundMapping sounds)

/-- The `mapping` query of the sprite exporter (`ExportSoundMap.csx` lines 62–69). -/
def spriteMapping (sprites : List Record) : List (Nat × String) :=
  orderByIndex (selectWithIndex sprites)

/-- The `exportData` dictionary of the sprite exporter. -/
def spriteExportData (sprites : List Record) : List (String × String) :=
  toDictionary (spriteMapping sprites)

/-- The `mapping` query of `ExportObjectMap.csx`. -/
def objectMapping (objs : List Record) : List (Nat × String) :=
  orderByIndex (selectWithIndex objs)

/-- The `exportData` dictionary of `ExportObjectMap.csx`. -/
def objectExportData (objs : List Record) : List (String × String) :=
  toDictionary (objectMapping objs)

theorem pairwise_selectWithIndex (S : List Record) :
    (selectWithIndex S).Pairwise (fun a b => a.1 < b.1) := by
  rw [List.pairwise_iff_getElem]
  intro i j hi hj hij
  simp only [selectWithIndex, List.length_map, List.enum_length] at hi hj
  simp only [selectWithIndex, List.getElem_map, List.getElem_enum]
  exact hij

theorem orderByIndex_selectWithIndex (S : List Record) :
    orderByIndex (selectWithIndex S) = selectWithIndex S :=
  List.Sorted.insertionSort_eq
    ((pairwise_selectWithIndex S).imp (fun h => le_of_lt h))

theorem soundExportData_eq (S : List Record) :
    soundExportData S = S.enum.map (fun p => (natToStr p.1, p.2.name)) := by
  rw [soundExportData, soundMapping, orderByIndex_selectWithIndex, toDictionary,
    selectWithIndex, List.map_map]
  rfl

/-- First components of the export dictionary: the decimal strings of `0 .. n-1`. -/
theorem soundExportData_keys (S : List Record) :
    (soundExportData S).map Prod.fst = (List.range S.length).map natToStr := by
  apply List.ext_getElem
  · simp [soundExportData_eq]
  · intro i h1 h2
    simp [soundExportData_eq, List.getElem_enum]

theorem soundExportData_length (S : List Record) :
    (soundExportData S).length = S.length := by
  simp [soundExportData_eq]

/-- Looking up an association list at the key of its `i`-th entry, when the keys
are pairwise distinct, returns the `i`-th value. -/
theorem lookup_eq_of_nodup_keys {β : Type} (l : List (String × β)) (i : Nat)
    (h : i < l.length) (hnd : (l.map Prod.fst).Nodup) :
    l.lookup (l[i].1) = some l[i].2 := by
  induction l generalizing i with
  | nil => simp at h
  | cons hd tl ih =>
    cases i with
    | zero => simp [List.lookup]
    | succ j =>
      have hj : j < tl.length := by simpa using h
      have hne : (tl[j].1 == hd.1) = false := by
        simp only [List.map_cons, List.nodup_cons] at hnd
        have : tl[j].1 ∈ tl.map Prod.fst := List.mem_map_of_mem _ (tl.getElem_mem hj)
        rw [beq_eq_false_iff_ne]
        intro hcontra
        exact hnd.1 (hcontra ▸ this)
      have hget : (hd :: tl)[j + 1] = tl[j] := by simp
      rw [hget]
      have hcons : List.lookup tl[j].1 (hd :: tl) = List.lookup tl[j].1 tl := by
        rcases hd with ⟨k, v⟩
        simp only [List.lookup, hne]
      rw [hcons]
      exact ih j hj (by simp only [List.map_cons, List.nodup_cons] at hnd; exact hnd.2)

theorem soundExportData_keys_nodup (S : List Record) :
    ((soundExportData S).map Prod.fst).Nodup := by
  rw [soundExportData_keys]
  exact (List.nodup_range _).map natToStr_injective

theorem soundExportData_lookup (S : List Record) (i : Nat) (h : i < S.length) :
    (soundExportData S).lookup (natToStr i) = some (S.get ⟨i, h⟩).name := by
  have hlen : i < (soundExportData S).length := by rwa [soundExportData_length]
  have hkey : (soundExportData S)[i].1 = natToStr i := by
    simp [soundExportData_eq, List.getElem_enum]
  have hval : (soundExportData S)[i].2 = (S.get ⟨i, h⟩).name := by
    simp [soundExportData_eq, List.getElem_enum]
  have := lookup_eq_of_nodup_keys (soundExportData S) i hlen (soundExportData_keys_nodup S)
  rw [hkey, hval] at this
  exact this

/-! ## Ordinal string comparison

Modelled from the spec: the default string comparer used by `OrderBy(n => n)` and
`SortedDictionary<string, ...>` orders strings by code points, case-sensitively
(§4.2: "code-point / ordinal comparison — case-sensitive, matching default
string comparison in the source scripts"). -/

/-- Code-point lexicographic `≤` on character lists. -/
def strLeList : List Char → List Char → Bool
  | [], _ => true
  | _ :: _, [] => false
  | c :: cs, d :: ds =>
      if c.toNat < d.toNat then true
      else if d.toNat < c.toNat then false
      else strLeList cs ds

/-- Code-point lexicographic `≤` on strings. -/
def strLe (a b : String) : Bool := strLeList a.data b.data

theorem strLeList_total : ∀ a b, strLeList a b = true ∨ strLeList b a = true := by
  intro a
  induction a with
  | nil => intro b; left; rfl
  | cons c cs ih =>
    intro b
    cases b with
    | nil => right; rfl
    | cons d ds =>
      simp only [strLeList]
      rcases Nat.lt_trichotomy c.toNat d.toNat with h | h | h
      · left; simp [h]
      · have h1 : ¬ c.toNat < d.toNat := by omega
        have h2 : ¬ d.toNat < c.toNat := by omega
        rcases ih ds with hle | hle
        · left; simp [h1, h2, hle]
        · right; simp [h1, h2, hle]
      · right; simp [h]

theorem strLeList_trans : ∀ a b c, strLeList a b = true → strLeList b c = true →
    strLeList a c = true := by
  intro a
  induction a with
  | nil => intro b c _ _; rfl
  | cons x xs ih =>
    intro b c hab hbc
    cases b with
    | nil => simp [strLeList] at hab
    | cons y ys =>
      cases c with
      | nil => simp [strLeList] at hbc
      | cons z zs =>
        simp only [strLeList] at hab hbc ⊢
        by_cases hxy : x.toNat < y.toNat <;> by_cases hyz : y.toNat < z.toNat
        · simp [show x.toNat < z.toNat by omega]
        · simp only [hyz, if_neg, not_false_iff] at hbc
          by_cases hzy : z.toNat < y.toNat
          · simp [hzy] at hbc
          · simp [show x.toNat < z.toNat by omega]
        · simp only [hxy, if_neg, not_false_iff] at hab
          by_cases hyx : y.toNat < x.toNat
          · simp [hyx] at hab
          · simp [show x.toNat < z.toNat by omega]
        · simp only [hxy, if_neg, not_false_iff] at hab
          simp only [hyz, if_neg, not_false_iff] at hbc
          by_cases hyx : y.toNat < x.toNat
          · simp [hyx] at hab
          · by_cases hzy : z.toNat < y.toNat
            · simp [hzy] at hbc
            · have h1 : ¬ x.toNat < z.toNat := by omega
              have h2 : ¬ z.toNat < x.toNat := by omega
              simp only [hyx, if_neg, not_false_iff] at hab
              simp only [hzy, if_neg, not_false_iff] at hbc
              simp [h1, h2, ih ys zs hab hbc]

theorem char_toNat_inj {c d : Char} (h : c.toNat = d.toNat) : c = d := by
  have hc := Char.ofNat_toNat c
  rw [h, Char.ofNat_toNat d] at hc
  exact hc.symm

theorem strLeList_antisymm : ∀ a b, strLeList a b = true → strLeList b a = true →
    a = b := by
  intro a
  induction a with
  | nil =>
    intro b _ hba
    cases b with
    | nil => rfl
    | cons d ds => simp [strLeList] at hba
  | cons c cs ih =>
    intro b hab hba
    cases b with
    | nil => simp [strLeList] at hab
    | cons d ds =>
      simp only [strLeList] at hab hba
      by_cases hcd : c.toNat < d.toNat
      · rw [if_neg (by omega), if_pos hcd] at hba
        simp at hba
      · by_cases hdc : d.toNat < c.toNat
        · rw [if_neg (by omega), if_pos hdc] at hab
          simp at hab
        · rw [if_neg hcd, if_neg hdc] at hab
          rw [if_neg hdc, if_neg hcd] at hba
          rw [char_toNat_inj (by omega : c.toNat = d.toNat), ih ds hab hba]

theorem strLe_total (a b : String) : strLe a b = true ∨ strLe b a = true :=
  strLeList_total a.data b.data

theorem strLe_trans {a b c : String} (hab : strLe a b = true) (hbc : strLe b c = true) :
    strLe a c = true :=
  strLeList_trans a.data b.data c.data hab hbc

theorem strLe_antisymm {a b : String} (hab : strLe a b = true) (hba : strLe b a = true) :
    a = b := by
  have h := strLeList_antisymm a.data b.data hab hba
  cases a
  cases b
  exact congrArg String.mk h

/-! ## The Hierarchy Grouper

`ExportObjectTree.csx` lines 23–30:

```
var inheritanceDict = Data.GameObjects
    .Where(o => o.ParentId is not null)
    .GroupBy(o => o.ParentId.Name.Content)
    .ToDictionary(g => g.Key, g => g.Select(o => o.Name.Content).OrderBy(n => n).ToList());
var sortedDict = new SortedDictionary<string, List<string>>(inheritanceDict);
```
-/

/-- `o.ParentId is not null`. -/
def hasParent (r : Record) : Bool := r.parent.isSome

/-- `o.ParentId.Name.Content` — the scripts evaluate it only after the null
filter; on a parentless record the (unreachable) value is `""`. -/
def parentKey (r : Record) : String :=
  match r.parent with
  | some p => p.name
  | none => ""

/-- The distinct grouping keys in order of first occurrence, as LINQ `GroupBy`
enumerates them. -/
def occKeys : List Record → List String
  | [] => []
  | r :: rs => parentKey r :: (occKeys rs).filter (fun k => !(k == parentKey r))

/-- LINQ `GroupBy(o => o.ParentId.Name.Content)`: one group per distinct key in
first-occurrence order, each group listing its members in source order. -/
def groupByParent (l : List Record) : List (String × List Record) :=
  (occKeys l).map (fun k => (k, l.filter (fun x => parentKey x == k)))

/-- LINQ `OrderBy(n => n)` over strings: stable sort under ordinal (code-point)
comparison, modelled by insertion sort. -/
def sortNames (l : List String) : List String :=
  List.insertionSort (fun a b : String => strLe a b = true) l

/-- The `inheritanceDict` of `ExportObjectTree.csx` as enumerated (group order),
with each group mapped to its members' names sorted ascending. -/
def inheritanceDict (S : List Record) : List (String × List String) :=
  (groupByParent (S.filter hasParent)).map (fun g => (g.1, sortNames (g.2.map Record.name)))

/-- `new SortedDictionary<string, List<string>>(inheritanceDict)`: the same
entries re-enumerated in ascending key order. -/
def sortedDict (S : List Record) : List (String × List String) :=
  List.insertionSort (fun a b : String × List String => strLe a.1 b.1 = true)
    (inheritanceDict S)

/-- Reference definition written from the spec's words (§4.2): keep the records
whose parent is non-null; the keys are the distinct parent names sorted
ascending; each key maps to the names of the records bearing that parent name,
sorted ascending. -/
def hierarchySpec (S : List Record) : List (String × List String) :=
  let qual := S.filter (fun r => r.parent.isSome)
  let keys := sortNames ((qual.map parentKey).dedup)
  keys.map (fun k => (k, sortNames ((qual.filter (fun x => parentKey x == k)).map Record.name)))

theorem mem_occKeys {l : List Record} {k : String} :
    k ∈ occKeys l ↔ k ∈ l.map parentKey := by
  induction l with
  | nil => simp [occKeys]
  | cons r rs ih =>
    simp only [occKeys, List.mem_cons, List.mem_filter, List.map_cons, ih,
      Bool.not_eq_true', beq_eq_false_iff_ne, ne_eq]
    by_cases hk : k = parentKey r <;> simp [hk]

theorem occKeys_nodup (l : List Record) : (occKeys l).Nodup := by
  induction l with
  | nil => simp [occKeys]
  | cons r rs ih =>
    simp only [occKeys, List.nodup_cons]
    refine ⟨fun hmem => ?_, ih.filter _⟩
    have := (List.mem_filter.mp hmem).2
    simp at this

theorem inheritanceDict_eq (S : List Record) :
    inheritanceDict S = (occKeys (S.filter hasParent)).map
      (fun k => (k, sortNames (((S.filter hasParent).filter
        (fun x => parentKey x == k)).map Record.name))) := by
  simp [inheritanceDict, groupByParent, List.map_map]

theorem inheritanceDict_keys (S : List Record) :
    (inheritanceDict S).map Prod.fst = occKeys (S.filter hasParent) := by
  rw [inheritanceDict_eq, List.map_map]
  simp [Function.comp_def]

/-- Looking up a key of a keyed map image, when the keys are distinct. -/
theorem lookup_map_keys {β : Type} (keys : List String) (f : String → β) (k : String)
    (hk : k ∈ keys) (hnd : keys.Nodup) :
    (keys.map (fun k => (k, f k))).lookup k = some (f k) := by
  induction keys with
  | nil => simp at hk
  | cons k0 ks ih =>
    rcases List.mem_cons.mp hk with h | h
    · subst h
      simp [List.lookup]
    · have hne : (k == k0) = false := by
        rw [beq_eq_false_iff_ne]
        intro hc
        exact (List.nodup_cons.mp hnd).1 (hc ▸ h)
      simp only [List.map_cons, List.lookup, hne]
      exact ih h (List.nodup_cons.mp hnd).2

theorem sortedDict_eq_spec (S : List Record) : sortedDict S = hierarchySpec S := by
  have hfil : S.filter (fun r => r.parent.isSome) = S.filter hasParent := rfl
  set qual := S.filter hasParent with hqual
  set F : String → List String :=
    fun k => sortNames ((qual.filter (fun x => parentKey x == k)).map Record.name) with hF
  set e : String → String × List String := fun k => (k, F k) with he
  set K0 := occKeys qual with hK0
  set K1 := sortNames ((qual.map parentKey).dedup) with hK1
  have hspec : hierarchySpec S = K1.map e := by
    simp only [hierarchySpec, hfil, he, hF, hK1]
  have hdict : inheritanceDict S = K0.map e := by
    rw [inheritanceDict_eq]
  have hK0nd : K0.Nodup := occKeys_nodup qual
  have hK1nd : K1.Nodup := by
    have : K1.Perm ((qual.map parentKey).dedup) := List.perm_insertionSort _ _
    exact this.nodup_iff.mpr (List.nodup_dedup _)
  have hmem : ∀ k, k ∈ K0 ↔ k ∈ K1 := by
    intro k
    rw [hK0, mem_occKeys, hK1]
    simp [sortNames]
  have hperm : K0.Perm K1 := (List.perm_ext_iff_of_nodup hK0nd hK1nd).mpr hmem
  -- both sides are sorted by strictly increasing keys and are permutations
  have hsortedL : (sortedDict S).Pairwise (fun a b => strLe a.1 b.1 = true) := by
    haveI hTot : IsTotal (String × List String) (fun a b => strLe a.1 b.1 = true) :=
      ⟨fun a b => strLe_total a.1 b.1⟩
    haveI hTrans : IsTrans (String × List String) (fun a b => strLe a.1 b.1 = true) :=
      ⟨fun a b c hab hbc => strLe_trans hab hbc⟩
    exact List.sorted_insertionSort _ _
  have hpermL : (sortedDict S).Perm (K0.map e) := by
    rw [sortedDict, hdict]
    exact List.perm_insertionSort _ _
  have hndL : ((sortedDict S).map Prod.fst).Nodup := by
    have h1 := hpermL.map Prod.fst
    rw [List.map_map] at h1
    have hid : List.map (Prod.fst ∘ e) K0 = K0 := by
      simp [he, Function.comp_def]
    rw [hid] at h1
    exact h1.nodup_iff.mpr hK0nd
  have hltL : (sortedDict S).Pairwise (fun a b => strLe a.1 b.1 = true ∧ a.1 ≠ b.1) := by
    have hne : (sortedDict S).Pairwise (fun a b => a.1 ≠ b.1) := by
      rw [← List.pairwise_map (f := Prod.fst)]
      exact hndL
    exact hsortedL.and hne
  have hsortedR : (K1.map e).Pairwise (fun a b => strLe a.1 b.1 = true ∧ a.1 ≠ b.1) := by
    have hK1sorted : K1.Pairwise (fun a b : String => strLe a b = true) := by
      haveI hTot : IsTotal String (fun a b : String => strLe a b = true) :=
        ⟨fun a b => strLe_total a b⟩
      haveI hTrans : IsTrans String (fun a b : String => strLe a b = true) :=
        ⟨fun a b c hab hbc => strLe_trans hab hbc⟩
      exact List.sorted_insertionSort _ _
    have hK1lt : K1.Pairwise (fun a b : String => strLe a b = true ∧ a ≠ b) := by
      have hne : K1.Pairwise (fun a b : String => a ≠ b) := hK1nd
      exact hK1sorted.and hne
    exact List.Pairwise.map e (fun a b h => h) hK1lt
  have hpermAll : (sortedDict S).Perm (K1.map e) := hpermL.trans (hperm.map e)
  haveI : IsAntisymm (String × List String) (fun a b => strLe a.1 b.1 = true ∧ a.1 ≠ b.1) :=
    ⟨fun a b h h' => (h.2 (strLe_antisymm h.1 h'.1)).elim⟩
  rw [hspec]
  exact List.eq_of_perm_of_sorted hpermAll hltL hsortedR

/-- Every name in any value list of `sortedDict` is the name of a source record
whose parent is non-null. -/
theorem sortedDict_values_from_parented (S : List Record) (p : String × List String)
    (hp : p ∈ sortedDict S) (n : String) (hn : n ∈ p.2) :
    ∃ r, r ∈ S ∧ r.parent.isSome = true ∧ r.name = n := by
  have hp' : p ∈ inheritanceDict S := by
    have h1 : p ∈ (inheritanceDict S).insertionSort
        (fun a b => strLe a.1 b.1 = true) := hp
    rwa [List.mem_insertionSort] at h1
  rw [inheritanceDict_eq] at hp'
  rcases List.mem_map.mp hp' with ⟨k, _, hk2⟩
  subst hk2
  simp only at hn
  rw [sortNames, List.mem_insertionSort] at hn
  rcases List.mem_map.mp hn with ⟨r, hr, hrn⟩
  rcases List.mem_filter.mp hr with ⟨hrq, _⟩
  rcases List.mem_filter.mp hrq with ⟨hrS, hrp⟩
  exact ⟨r, hrS, hrp, hrn⟩

/-- Every record with a non-null parent contributes its name to the group of its
parent's name. -/
theorem sortedDict_complete (S : List Record) (r : Record) (hr : r ∈ S)
    (hp : r.parent.isSome = true) :
    ∃ l, (sortedDict S).lookup (parentKey r) = some l ∧ r.name ∈ l := by
  have hrq : r ∈ S.filter hasParent := List.mem_filter.mpr ⟨hr, hp⟩
  set qual := S.filter hasParent with hqual
  set F : String → List String :=
    fun k => sortNames ((qual.filter (fun x => parentKey x == k)).map Record.name) with hF
  have hspec : sortedDict S = (sortNames ((qual.map parentKey).dedup)).map
      (fun k => (k, F k)) := by
    rw [sortedDict_eq_spec]
    simp only [hierarchySpec, hF, hqual]
    rfl
  have hkmem : parentKey r ∈ sortNames ((qual.map parentKey).dedup) := by
    rw [sortNames, List.mem_insertionSort, List.mem_dedup]
    exact List.mem_map_of_mem _ hrq
  have hknd : (sortNames ((qual.map parentKey).dedup)).Nodup := by
    have : (sortNames ((qual.map parentKey).dedup)).Perm ((qual.map parentKey).dedup) :=
      List.perm_insertionSort _ _
    exact this.nodup_iff.mpr (List.nodup_dedup _)
  refine ⟨F (parentKey r), ?_, ?_⟩
  · rw [hspec]
    exact lookup_map_keys _ _ _ hkmem hknd
  · rw [hF]
    simp only [sortNames, List.mem_insertionSort]
    exact List.mem_map_of_mem _ (List.mem_filter.mpr ⟨hrq, by simp⟩)

/-- Null-parent records have no influence on the grouper's output. -/
theorem sortedDict_filter_invariant (S : List Record) :
    sortedDict S = sortedDict (S.filter (fun r => r.parent.isSome)) := by
  have h : (S.filter (fun r => r.parent.isSome)).filter hasParent = S.filter hasParent := by
    rw [List.filter_filter]
    apply List.filter_congr
    intro x _
    cases hx : hasParent x <;> simp [hasParent] at hx ⊢ <;> simp [hx]
  simp only [sortedDict, inheritanceDict, h]

/-! ## The Deterministic JSON Writer

Modelled from the spec (§4.3), matching the serializer configuration in the
scripts (`System.Text.Json` with `WriteIndented = true` and
`Encoder = JavaScriptEncoder.UnsafeRelaxedJsonEscaping`): pretty-printed with
two-space indentation, non-ASCII characters emitted literally (never as
`\uXXXX`), only the quote, the backslash and control characters escaped.
The exported maps have string keys and string or string-list values. -/

/-- The value shapes the exporters serialize. -/
inductive JVal where
  | jstr : String → JVal
  | jarr : List String → JVal
deriving DecidableEq

/-- Lower-case hex digit for `n < 16`. -/
def hexDigitChar (n : Nat) : Char :=
  if n < 10 then Char.ofNat (48 + n) else Char.ofNat (87 + n)

/-- JSON escaping of one character under `UnsafeRelaxedJsonEscaping`: quote,
backslash and the short control escapes, `\u00XX` for the remaining control
characters, everything else (non-ASCII included) literal. -/
def escapeChar (c : Char) : List Char :=
  if c = '"' then ['\\', '"']
  else if c = '\\' then ['\\', '\\']
  else if c = '\n' then ['\\', 'n']
  else if c = '\r' then ['\\', 'r']
  else if c = '\t' then ['\\', 't']
  else if c = '\x08' then ['\\', 'b']
  else if c = '\x0c' then ['\\', 'f']
  else if c.toNat < 32 then
    ['\\', 'u', '0', '0', hexDigitChar (c.toNat / 16), hexDigitChar (c.toNat % 16)]
  else [c]

def escapeList : List Char → List Char
  | [] => []
  | c :: cs => escapeChar c ++ escapeList cs

/-- A JSON string literal: quoted, escaped. -/
def quoteString (s : String) : List Char :=
  '"' :: (escapeList s.data ++ ['"'])

/-- Array elements, one per line at depth-2 indentation. -/
def arrItems : List String → List Char
  | [] => []
  | [x] => ' ' :: ' ' :: ' ' :: ' ' :: quoteString x
  | x :: y :: xs =>
      (' ' :: ' ' :: ' ' :: ' ' :: quoteString x) ++ ',' :: '\n' :: arrItems (y :: xs)

def serializeVal : JVal → List Char
  | .jstr s => quoteString s
  | .jarr [] => ['[', ']']
  | .jarr (x :: xs) => '[' :: '\n' :: (arrItems (x :: xs) ++ ['\n', ' ', ' ', ']'])

/-- Object members, one per line at depth-1 indentation. -/
def objMembers : List (String × JVal) → List Char
  | [] => []
  | [(k, v)] => ' ' :: ' ' :: (quoteString k ++ ':' :: ' ' :: serializeVal v)
  | (k, v) :: m :: ms =>
      (' ' :: ' ' :: (quoteString k ++ ':' :: ' ' :: serializeVal v)) ++
        ',' :: '\n' :: objMembers (m :: ms)

/-- `JsonSerializer.Serialize` of a map, as configured in the scripts. -/
def serializeMap : List (String × JVal) → List Char
  | [] => ['\x7b', '\x7d']
  | m :: ms => '\x7b' :: '\n' :: (objMembers (m :: ms) ++ ['\n', '\x7d'])

/-- The serialized JSON text. -/
def serializeJson (ms : List (String × JVal)) : String := ⟨serializeMap ms⟩

/-! ### A standard JSON reader for the shapes above

Modelled from the spec (§8 round-trip property): "parsing the result back" with
an ordinary JSON parser, restricted to objects whose values are strings or
arrays of strings. -/

/-- Value of a hex digit character. -/
def hexVal (c : Char) : Option Nat :=
  if 48 ≤ c.toNat ∧ c.toNat ≤ 57 then some (c.toNat - 48)
  else if 97 ≤ c.toNat ∧ c.toNat ≤ 102 then some (c.toNat - 87)
  else if 65 ≤ c.toNat ∧ c.toNat ≤ 70 then some (c.toNat - 55)
  else none

def isWs (c : Char) : Bool := c = ' ' || c = '\n' || c = '\r' || c = '\t'

def skipWs : List Char → List Char
  | [] => []
  | c :: rest => if isWs c then skipWs rest else c :: rest

/-- Parse the remainder of a string literal after the opening quote; returns the
decoded characters and the input after the closing quote. -/
def parseStringBody : List Char → Option (List Char × List Char)
  | [] => none
  | c :: rest =>
    if c = '"' then some ([], rest)
    else if c = '\\' then
      match rest with
      | [] => none
      | e :: rest2 =>
        if e = '"' then (parseStringBody rest2).map (fun p => ('"' :: p.1, p.2))
        else if e = '\\' then (parseStringBody rest2).map (fun p => ('\\' :: p.1, p.2))
        else if e = 'n' then (parseStringBody rest2).map (fun p => ('\n' :: p.1, p.2))
        else if e = 'r' then (parseStringBody rest2).map (fun p => ('\r' :: p.1, p.2))
        else if e = 't' then (parseStringBody rest2).map (fun p => ('\t' :: p.1, p.2))
        else if e = 'b' then (parseStringBody rest2).map (fun p => ('\x08' :: p.1, p.2))
        else if e = 'f' then (parseStringBody rest2).map (fun p => ('\x0c' :: p.1, p.2))
        else if e = 'u' then
          match rest2 with
          | h1 :: h2 :: h3 :: h4 :: rest3 =>
            match hexVal h1, hexVal h2, hexVal h3, hexVal h4 with
            | some d1, some d2, some d3, some d4 =>
              (parseStringBody rest3).map
                (fun p => (Char.ofNat (((d1 * 16 + d2) * 16 + d3) * 16 + d4) :: p.1, p.2))
            | _, _, _, _ => none
          | _ => none
        else none
    else (parseStringBody rest).map (fun p => (c :: p.1, p.2))

/-- Parse a quoted string literal. -/
def parseJString (input : List Char) : Option (String × List Char) :=
  match input with
  | '"' :: rest => (parseStringBody rest).map (fun p => (⟨p.1⟩, p.2))
  | _ => none

/-- Parse the items of an array after the opening bracket. -/
def parseArrRest : Nat → List Char → Option (List String × List Char)
  | 0, _ => none
  | fuel + 1, input =>
    match skipWs input with
    | ']' :: rest => some ([], rest)
    | t =>
      match parseJString t with
      | none => none
      | some (s, r1) =>
        match skipWs r1 with
        | ',' :: r2 =>
          match parseArrRest fuel r2 with
          | some (xs, r3) => some (s :: xs, r3)
          | none => none
        | ']' :: r2 => some ([s], r2)
        | _ => none

/-- Parse a value: a string literal or an array of string literals. -/
def parseVal (fuel : Nat) (input : List Char) : Option (JVal × List Char) :=
  match skipWs input with
  | '"' :: rest => (parseStringBody rest).map (fun p => (JVal.jstr ⟨p.1⟩, p.2))
  | '[' :: rest => (parseArrRest fuel rest).map (fun p => (JVal.jarr p.1, p.2))
  | _ => none

/-- Parse the members of an object after the opening brace. -/
def parseMembers : Nat → List Char → Option (List (String × JVal) × List Char)
  | 0, _ => none
  | fuel + 1, input =>
    match skipWs input with
    | '\x7d' :: rest => some ([], rest)
    | t =>
      match parseJString t with
      | none => none
      | some (k, r1) =>
        match skipWs r1 with
        | ':' :: r2 =>
          match parseVal fuel r2 with
          | none => none
          | some (v, r3) =>
            match skipWs r3 with
            | ',' :: r4 => (parseMembers fuel r4).map (fun p => ((k, v) :: p.1, p.2))
            | '\x7d' :: r4 => some ([(k, v)], r4)
            | _ => none
        | _ => none

/-- Parse a whole JSON document consisting of one object. -/
def parseDoc (s : String) : Option (List (String × JVal)) :=
  match skipWs s.data with
  | '\x7b' :: rest =>
    match parseMembers (s.data.length + 1) rest with
    | some (ms, r) => if skipWs r = [] then some ms else none
    | none => none
  | _ => none

/-! ### Round-trip: the reader inverts the writer -/

theorem hexVal_hexDigitChar : ∀ n < 16, hexVal (hexDigitChar n) = some n := by
  decide

theorem parseStringBody_escapeList (l : List Char) (rest : List Char) :
    parseStringBody (escapeList l ++ ('"' :: rest)) = some (l, rest) := by
  induction l generalizing rest with
  | nil =>
    rw [escapeList, List.nil_append, parseStringBody.eq_def]
    simp
  | cons c cs ih =>
    rw [escapeList, List.append_assoc]
    by_cases h1 : c = '"'
    · subst h1; rw [escapeChar]; simp only [List.cons_append, List.nil_append]
      rw [parseStringBody.eq_def]; simp [ih]
    by_cases h2 : c = '\\'
    · subst h2; rw [escapeChar]; simp only [List.cons_append, List.nil_append, reduceIte]
      rw [parseStringBody.eq_def]; simp [ih]
    by_cases h3 : c = '\n'
    · subst h3; rw [escapeChar]; simp only [List.cons_append, List.nil_append, reduceIte]
      rw [parseStringBody.eq_def]; simp [ih]
    by_cases h4 : c = '\r'
    · subst h4; rw [escapeChar]; simp only [List.cons_append, List.nil_append, reduceIte]
      rw [parseStringBody.eq_def]; simp [ih]
    by_cases h5 : c = '\t'
    · subst h5; rw [escapeChar]; simp only [List.cons_append, List.nil_append, reduceIte]
      rw [parseStringBody.eq_def]; simp [ih]
    by_cases h6 : c = '\x08'
    · subst h6; rw [escapeChar]; simp only [List.cons_append, List.nil_append, reduceIte]
      rw [parseStringBody.eq_def]; simp [ih]
    by_cases h7 : c = '\x0c'
    · subst h7; rw [escapeChar]; simp only [List.cons_append, List.nil_append, reduceIte]
      rw [parseStringBody.eq_def]; simp [ih]
    by_cases h8 : c.toNat < 32
    · rw [escapeChar, if_neg h1, if_neg h2, if_neg h3, if_neg h4, if_neg h5, if_neg h6,
        if_neg h7, if_pos h8]
      have hd1 : hexVal (hexDigitChar (c.toNat / 16)) = some (c.toNat / 16) :=
        hexVal_hexDigitChar _ (by omega)
      have hd2 : hexVal (hexDigitChar (c.toNat % 16)) = some (c.toNat % 16) :=
        hexVal_hexDigitChar _ (by omega)
      have harith : ((0 * 16 + 0) * 16 + c.toNat / 16) * 16 + c.toNat % 16 = c.toNat := by
        omega
      have h0 : hexVal '0' = some 0 := by decide
      simp only [List.cons_append, List.nil_append]
      rw [parseStringBody.eq_def]
      simp [h0, hd1, hd2, ih]
      have h9 : c.toNat / 16 * 16 + c.toNat % 16 = c.toNat := by omega
      rw [h9]
      exact Char.ofNat_toNat c
    · rw [escapeChar, if_neg h1, if_neg h2, if_neg h3, if_neg h4, if_neg h5, if_neg h6,
        if_neg h7, if_neg h8]
      simp only [List.cons_append, List.nil_append]
      rw [parseStringBody.eq_def]
      simp [if_neg h1, if_neg h2, ih]

theorem parseJString_quoteString (s : String) (rest : List Char) :
    parseJString (quoteString s ++ rest) = some (s, rest) := by
  cases s with
  | mk data =>
    rw [quoteString]
    simp only [List.cons_append, List.append_assoc, List.singleton_append]
    rw [parseJString]
    simp [parseStringBody_escapeList]

theorem parseJString_cons (l : List Char) (rest : List Char) :
    parseJString ('"' :: (escapeList l ++ ('"' :: rest))) = some (⟨l⟩, rest) := by
  rw [parseJString]
  simp [parseStringBody_escapeList]

/-- Fuel needed by `parseVal` for one value. -/
def jvalSize : JVal → Nat
  | .jstr _ => 0
  | .jarr xs => xs.length + 1

/-- Fuel needed by `parseMembers` for a member list. -/
def jfuel : List (String × JVal) → Nat
  | [] => 0
  | m :: ms => 1 + jvalSize m.2 + jfuel ms

theorem parseVal_ws (fuel : Nat) (c : Char) (input : List Char) (h : isWs c = true) :
    parseVal fuel (c :: input) = parseVal fuel input := by
  rw [parseVal, parseVal, skipWs, if_pos h]

theorem parseArrRest_arrItems (xs : List String) :
    ∀ (x : String) (fuel : Nat) (rest : List Char), xs.length < fuel →
    parseArrRest fuel ('\n' :: (arrItems (x :: xs) ++ ('\n' :: ' ' :: ' ' :: ']' :: rest))) =
      some (x :: xs, rest) := by
  induction xs with
  | nil =>
    intro x fuel rest hf
    obtain ⟨xd⟩ := x
    cases fuel with
    | zero => omega
    | succ f =>
      rw [arrItems, quoteString]
      rw [parseArrRest.eq_def]
      simp [skipWs, isWs, parseJString_cons]
  | cons y ys ih =>
    intro x fuel rest hf
    obtain ⟨xd⟩ := x
    cases fuel with
    | zero => omega
    | succ f =>
      rw [arrItems, quoteString]
      rw [parseArrRest.eq_def]
      have hr := ih y f rest (by simpa using Nat.lt_of_succ_lt_succ hf)
      simp [skipWs, isWs, parseJString_cons, hr]

theorem parseVal_serializeVal (v : JVal) (fuel : Nat) (rest : List Char)
    (hf : jvalSize v ≤ fuel) :
    parseVal fuel (serializeVal v ++ rest) = some (v, rest) := by
  cases v with
  | jstr s =>
    obtain ⟨sd⟩ := s
    rw [serializeVal, quoteString]
    rw [parseVal]
    simp [skipWs, isWs, parseStringBody_escapeList]
  | jarr xs =>
    cases xs with
    | nil =>
      cases fuel with
      | zero => simp [jvalSize] at hf
      | succ f =>
        rw [serializeVal]
        rw [parseVal]
        have h1 : parseArrRest (f + 1) (']' :: rest) = some ([], rest) := by
          rw [parseArrRest.eq_def]
          simp [skipWs, isWs]
        simp [skipWs, isWs, h1]
    | cons x xs' =>
      rw [serializeVal]
      simp only [List.cons_append, List.append_assoc]
      rw [parseVal]
      have harr := parseArrRest_arrItems xs' x fuel rest
        (by simp [jvalSize] at hf; omega)
      simp [skipWs, isWs, harr]

theorem parseMembers_objMembers (ms : List (String × JVal)) :
    ∀ (k : String) (v : JVal) (fuel : Nat) (rest : List Char),
    jfuel ((k, v) :: ms) ≤ fuel →
    parseMembers fuel ('\n' :: (objMembers ((k, v) :: ms) ++ ('\n' :: '\x7d' :: rest))) =
      some ((k, v) :: ms, rest) := by
  induction ms with
  | nil =>
    intro k v fuel rest hf
    obtain ⟨kd⟩ := k
    cases fuel with
    | zero => simp [jfuel] at hf
    | succ f =>
      rw [objMembers, quoteString]
      rw [parseMembers.eq_def]
      have hval : parseVal f (' ' :: (serializeVal v ++ ('\n' :: '\x7d' :: rest))) =
          some (v, '\n' :: '\x7d' :: rest) := by
        rw [parseVal_ws _ _ _ (by decide)]
        exact parseVal_serializeVal v f _ (by simp [jfuel, jvalSize] at hf ⊢; omega)
      simp [skipWs, isWs, parseJString_cons, hval]
  | cons m ms' ih =>
    intro k v fuel rest hf
    obtain ⟨kd⟩ := k
    obtain ⟨k2, v2⟩ := m
    cases fuel with
    | zero => simp [jfuel] at hf
    | succ f =>
      rw [objMembers, quoteString]
      rw [parseMembers.eq_def]
      have hval : parseVal f (' ' :: (serializeVal v ++
          (',' :: '\n' :: (objMembers ((k2, v2) :: ms') ++ ('\n' :: '\x7d' :: rest))))) =
          some (v, ',' :: '\n' :: (objMembers ((k2, v2) :: ms') ++ ('\n' :: '\x7d' :: rest))) := by
        rw [parseVal_ws _ _ _ (by decide)]
        exact parseVal_serializeVal v f _ (by simp [jfuel] at hf ⊢; omega)
      have hrec := ih k2 v2 f rest (by simp [jfuel] at hf ⊢; omega)
      simp [skipWs, isWs, parseJString_cons, hval, hrec]

theorem quoteString_length (s : String) : 2 ≤ (quoteString s).length := by
  simp [quoteString]

theorem length_arrItems (l : List String) : l.length ≤ (arrItems l).length := by
  induction l with
  | nil => simp [arrItems]
  | cons x xs ih =>
    cases xs with
    | nil =>
      have := quoteString_length x
      simp only [arrItems, List.length_cons, List.length_nil]
      omega
    | cons y ys =>
      rw [arrItems]
      have := quoteString_length x
      simp only [List.length_append, List.length_cons] at ih ⊢
      omega

theorem jvalSize_le_length (v : JVal) : jvalSize v ≤ (serializeVal v).length := by
  cases v with
  | jstr s => simp [jvalSize]
  | jarr xs =>
    cases xs with
    | nil => simp [jvalSize, serializeVal]
    | cons x xs' =>
      rw [jvalSize, serializeVal]
      have := length_arrItems (x :: xs')
      simp only [List.length_cons] at this ⊢
      simp only [List.length_append, List.length_cons]
      omega

theorem jfuel_le_length (ms : List (String × JVal)) : jfuel ms ≤ (objMembers ms).length := by
  induction ms with
  | nil => simp [jfuel, objMembers]
  | cons m ms' ih =>
    obtain ⟨k, v⟩ := m
    cases ms' with
    | nil =>
      rw [jfuel, objMembers]
      have h1 := jvalSize_le_length v
      have h2 := quoteString_length k
      simp only [jfuel, List.length_cons, List.length_append]
      omega
    | cons m2 ms2 =>
      rw [jfuel, objMembers]
      have h1 := jvalSize_le_length v
      have h2 := quoteString_length k
      simp only [List.length_append, List.length_cons] at ih ⊢
      omega

/-- Round-trip: parsing the serialized map recovers it exactly. -/
theorem parseDoc_serializeJson (ms : List (String × JVal)) :
    parseDoc (serializeJson ms) = some ms := by
  cases ms with
  | nil => decide
  | cons m ms' =>
    obtain ⟨k, v⟩ := m
    rw [parseDoc]
    have hdata : (serializeJson ((k, v) :: ms')).data = serializeMap ((k, v) :: ms') := rfl
    rw [hdata]
    have hfuel : jfuel ((k, v) :: ms') ≤ (serializeMap ((k, v) :: ms')).length + 1 := by
      have h1 := jfuel_le_length ((k, v) :: ms')
      rw [serializeMap]
      simp only [List.length_cons, List.length_append]
      omega
    have hmem := parseMembers_objMembers ms' k v
      ((serializeMap ((k, v) :: ms')).length + 1) [] hfuel
    rw [serializeMap] at hmem ⊢
    simp at hmem
    simp [skipWs, isWs, hmem]

/-! ## Output path resolution (`Paths.csx`)

The `System.IO.Path` and `System.IO.Directory` operations are modelled from the
spec on `/`-separated paths: a path is rooted when it starts with `/`;
`GetFullPath` resolves a relative path against the current working directory and
collapses empty, `.` and `..` segments; `GetDirectoryName` drops the last
segment. The existing directories are carried as an explicit list. -/

/-- `Path.IsPathRooted`. -/
def isPathRooted (p : String) : Bool := p.data.head? == some '/'

/-- `Path.Combine(a, b)`: `b` itself when rooted, otherwise `a`, a separator
and `b`. -/
def combine (a b : String) : String :=
  if isPathRooted b then b else a ++ "/" ++ b

/-- Split on `/` (a leading `/` yields a leading empty segment). -/
def segsOf : List Char → List (List Char)
  | [] => [[]]
  | c :: rest =>
      if c = '/' then [] :: segsOf rest
      else
        match segsOf rest with
        | [] => [[c]]
        | s :: ss => (c :: s) :: ss

/-- Join segments with `/`. -/
def joinSegs : List (List Char) → List Char
  | [] => []
  | [s] => s
  | s :: t :: rest => s ++ '/' :: joinSegs (t :: rest)

/-- One normalization step: drop empty and `.` segments, let `..` pop. -/
def normStep (st : List (List Char)) (s : List Char) : List (List Char) :=
  if s = [] || s = ['.'] then st
  else if s = ['.', '.'] then st.tail
  else s :: st

/-- Normalize an absolute path given as a character list. -/
def normalizeAbs (l : List Char) : String :=
  ⟨'/' :: joinSegs (((segsOf l).foldl normStep []).reverse)⟩

/-- `Path.GetFullPath(p)`: `p` resolved against the working directory when
relative, with `.`, `..` and empty segments collapsed. -/
def getFullPath (p : String) (cwd : String) : String :=
  if isPathRooted p then normalizeAbs p.data
  else normalizeAbs (cwd ++ "/" ++ p).data

/-- `Path.GetDirectoryName(p)`: everything before the last separator. -/
def getDirectoryName (p : String) : String :=
  ⟨joinSegs (segsOf p.data).dropLast⟩

/-- The error exits of `GetMetaOutput`: `FileNotFoundException` (with the config
path), `KeyNotFoundException` from `GetProperty`, and the explicit
`Exception("Missing 'data_meta' key in paths.json")`. -/
inductive PathsError where
  | fileNotFound : String → PathsError
  | keyNotFound : PathsError
  | missingDataMeta : PathsError
deriving DecidableEq

/-- `GetMetaOutput` of `Paths.csx`. `cfgExists` models `File.Exists(configPath)`;
`dataMeta` is the parsed `"data_meta"` property — `none` when the key is absent
(`GetProperty` throws), `some none` when it is JSON `null` (`GetString()`
returns null), `some (some s)` when it is the string `s`. `dirs` is the set of
existing directories, extended when `Directory.CreateDirectory` runs; `cwd` is
the working directory `Path.GetFullPath` consults for relative arguments. -/
def GetMetaOutput (scriptPath cwd : String) (cfgExists : Bool)
    (dataMeta : Option (Option String)) (dirs : List String) :
    Except PathsError (String × List String) :=
  let scriptDir := getDirectoryName scriptPath
  let rootDir := getFullPath (combine scriptDir "..") cwd
  let configPath := combine rootDir "paths.json"
  if !cfgExists then .error (.fileNotFound configPath)
  else
    match dataMeta with
    | none => .error .keyNotFound
    | some v =>
      let outputFolder : Option String :=
        match v with
        | none => none
        | some path =>
          if path.data.isEmpty then none
          else if isPathRooted path then some path
          else some (getFullPath (combine rootDir path) cwd)
      match outputFolder with
      | none => .error .missingDataMeta
      | some f => .ok (f, if f ∈ dirs then dirs else f :: dirs)

/-! ## The export scripts as one-shot state transformers -/

/-- The output file system: path ↦ contents. -/
def FS := String → Option String

/-- `File.WriteAllText(path, text)`: create or overwrite atomically. -/
def writeAllText (fs : FS) (p t : String) : FS :=
  fun q => if q = p then some t else fs q

/-- The JSON text `ExportSoundMap.csx` (sounds section) produces. -/
def soundJson (sounds : List Record) : String :=
  serializeJson ((soundExportData sounds).map (fun kv => (kv.1, JVal.jstr kv.2)))

/-- The JSON text the sprite exporter produces. -/
def spriteJson (sprites : List Record) : String :=
  serializeJson ((spriteExportData sprites).map (fun kv => (kv.1, JVal.jstr kv.2)))

/-- The JSON text `ExportObjectMap.csx` produces. -/
def objectJson (objs : List Record) : String :=
  serializeJson ((objectExportData objs).map (fun kv => (kv.1, JVal.jstr kv.2)))

/-- The JSON text `ExportObjectTree.csx` produces. -/
def treeJson (objs : List Record) : String :=
  serializeJson ((sortedDict objs).map (fun kv => (kv.1, JVal.jarr kv.2)))

/-- One run of `ExportSoundMap.csx` (sounds section): the `Data.IsYYC()` guard
aborts with no effect; an error from `GetMetaOutput` propagates with no effect;
otherwise the map is serialized and written. -/
def runSoundExport (isYYC : Bool) (scriptPath cwd : String) (cfgExists : Bool)
    (dataMeta : Option (Option String)) (sounds : List Record)
    (fs : FS) (dirs : List String) : FS × List String :=
  if isYYC then (fs, dirs)
  else
    match GetMetaOutput scriptPath cwd cfgExists dataMeta dirs with
    | .error _ => (fs, dirs)
    | .ok (folder, dirs') =>
        (writeAllText fs (combine folder "sound_index_map.json") (soundJson sounds), dirs')

/-- One run of the sprite exporter. -/
def runSpriteExport (isYYC : Bool) (scriptPath cwd : String) (cfgExists : Bool)
    (dataMeta : Option (Option String)) (sprites : List Record)
    (fs : FS) (dirs : List String) : FS × List String :=
  if isYYC then (fs, dirs)
  else
    match GetMetaOutput scriptPath cwd cfgExists dataMeta dirs with
    | .error _ => (fs, dirs)
    | .ok (folder, dirs') =>
        (writeAllText fs (combine folder "sprite_index_map.json") (spriteJson sprites), dirs')

/-- One run of `ExportObjectMap.csx`. -/
def runObjectExport (isYYC : Bool) (scriptPath cwd : String) (cfgExists : Bool)
    (dataMeta : Option (Option String)) (objs : List Record)
    (fs : FS) (dirs : List String) : FS × List String :=
  if isYYC then (fs, dirs)
  else
    match GetMetaOutput scriptPath cwd cfgExists dataMeta dirs with
    | .error _ => (fs, dirs)
    | .ok (folder, dirs') =>
        (writeAllText fs (combine folder "object_index_map.json") (objectJson objs), dirs')

/-- One run of `ExportObjectTree.csx`. -/
def runTreeExport (isYYC : Bool) (scriptPath cwd : String) (cfgExists : Bool)
    (dataMeta : Option (Option String)) (objs : List Record)
    (fs : FS) (dirs : List String) : FS × List String :=
  if isYYC then (fs, dirs)
  else
    match GetMetaOutput scriptPath cwd cfgExists dataMeta dirs with
    | .error _ => (fs, dirs)
    | .ok (folder, dirs') =>
        (writeAllText fs (combine folder "object_tree.json") (treeJson objs), dirs')

theorem writeAllText_idem (fs : FS) (p t : String) :
    writeAllText (writeAllText fs p t) p t = writeAllText fs p t := by
  funext q
  unfold writeAllText
  by_cases h : q = p <;> simp [h]

theorem GetMetaOutput_idem (sp cwd : String) (cfg : Bool) (dm : Option (Option String))
    (dirs : List String) (f : String) (d' : List String)
    (h : GetMetaOutput sp cwd cfg dm dirs = .ok (f, d')) :
    GetMetaOutput sp cwd cfg dm d' = .ok (f, d') := by
  unfold GetMetaOutput at h ⊢
  cases cfg with
  | false => simp at h
  | true =>
    cases dm with
    | none => simp at h
    | some v =>
      cases v with
      | none => simp at h
      | some path =>
        by_cases he : path.data.isEmpty
        · simp [he] at h
        · by_cases hr : isPathRooted path = true
          · simp only [he, hr] at h ⊢
            simp at h ⊢
            obtain ⟨hf, hd⟩ := h
            subst hf
            subst hd
            by_cases hmem : path ∈ dirs <;> simp [hmem]
          · simp only [he, hr] at h ⊢
            simp at h ⊢
            obtain ⟨hf, hd⟩ := h
            subst hf
            subst hd
            by_cases hmem :
                getFullPath (combine (getFullPath (combine (getDirectoryName sp) "..") cwd)
                  path) cwd ∈ dirs <;> simp [hmem]

theorem runSoundExport_idem (y : Bool) (sp cwd : String) (cfg : Bool)
    (dm : Option (Option String)) (S : List Record) (fs : FS) (dirs : List String) :
    runSoundExport y sp cwd cfg dm S (runSoundExport y sp cwd cfg dm S fs dirs).1
      (runSoundExport y sp cwd cfg dm S fs dirs).2 = runSoundExport y sp cwd cfg dm S fs dirs := by
  unfold runSoundExport
  cases y with
  | true => simp
  | false =>
    simp only [Bool.false_eq_true, if_false]
    cases hG : GetMetaOutput sp cwd cfg dm dirs with
    | error e => simp [hG]
    | ok fd =>
      obtain ⟨f, d'⟩ := fd
      have h2 := GetMetaOutput_idem sp cwd cfg dm dirs f d' hG
      simp [hG, h2, writeAllText_idem]

theorem runTreeExport_idem (y : Bool) (sp cwd : String) (cfg : Bool)
    (dm : Option (Option String)) (S : List Record) (fs : FS) (dirs : List String) :
    runTreeExport y sp cwd cfg dm S (runTreeExport y sp cwd cfg dm S fs dirs).1
      (runTreeExport y sp cwd cfg dm S fs dirs).2 = runTreeExport y sp cwd cfg dm S fs dirs := by
  unfold runTreeExport
  cases y with
  | true => simp
  | false =>
    simp only [Bool.false_eq_true, if_false]
    cases hG : GetMetaOutput sp cwd cfg dm dirs with
    | error e => simp [hG]
    | ok fd =>
      obtain ⟨f, d'⟩ := fd
      have h2 := GetMetaOutput_idem sp cwd cfg dm dirs f d' hG
      simp [hG, h2, writeAllText_idem]

theorem sortedDict_values_nonempty (S : List Record) (p : String × List String)
    (hp : p ∈ sortedDict S) : p.2 ≠ [] := by
  have hp' : p ∈ inheritanceDict S := by
    have h1 : p ∈ (inheritanceDict S).insertionSort (fun a b => strLe a.1 b.1 = true) := hp
    rwa [List.mem_insertionSort] at h1
  rw [inheritanceDict_eq] at hp'
  rcases List.mem_map.mp hp' with ⟨k, hk, hk2⟩
  subst hk2
  intro hnil
  simp only at hnil
  rw [mem_occKeys] at hk
  rcases List.mem_map.mp hk with ⟨r, hr, hrk⟩
  have hmem : r.name ∈ (((S.filter hasParent).filter
      (fun x => parentKey x == k)).map Record.name) :=
    List.mem_map_of_mem _ (List.mem_filter.mpr ⟨hr, by rw [hrk]; simp⟩)
  have hmem2 : r.name ∈ sortNames (((S.filter hasParent).filter
      (fun x => parentKey x == k)).map Record.name) := by
    rw [sortNames, List.mem_insertionSort]
    exact hmem
  rw [hnil] at hmem2
  simp at hmem2

theorem isPathRooted_append (a b : String) (h : isPathRooted a = true) :
    isPathRooted (a ++ b) = true := by
  rw [isPathRooted] at h ⊢
  rw [String.data_append]
  cases hd : a.data with
  | nil => rw [hd] at h; simp at h
  | cons c t =>
    rw [hd] at h
    simp at h
    subst h
    simp

theorem isPathRooted_normalizeAbs (l : List Char) :
    isPathRooted (normalizeAbs l) = true := by
  simp [normalizeAbs, isPathRooted]

theorem getFullPath_of_rooted (p cwd : String) (h : isPathRooted p = true) :
    getFullPath p cwd = normalizeAbs p.data := by
  rw [getFullPath, if_pos h]

theorem GetMetaOutput_ok_eval (sp cwd : String) (p : String) (dirs : List String)
    (hne : p.data.isEmpty = false) :
    GetMetaOutput sp cwd true (some (some p)) dirs =
      (let f := if isPathRooted p then p
        else getFullPath (combine (getFullPath (combine (getDirectoryName sp) "..") cwd) p) cwd
      .ok (f, if f ∈ dirs then dirs else f :: dirs)) := by
  unfold GetMetaOutput
  by_cases hp : isPathRooted p = true
  · simp [hne, hp]
  · simp [hne, hp]

/-! ## The claims -/

/-- C1: the Name Index Projector (`exportData` in `ExportSoundMap.csx`) maps any
record sequence of length `n` (including `n = 0`) to a dictionary with exactly
`n` entries, whose keys are exactly the decimal strings `"0" .. str(n-1)` in
order, whose value at key `str(i)` is `S[i].name`, and which is the empty map
on the empty sequence rather than an error. -/
theorem nameIndexProjector_correct (S : List Record) :
    (soundExportData S).length = S.length ∧
    (soundExportData S).map Prod.fst = (List.range S.length).map natToStr ∧
    (∀ i (h : i < S.length),
      (soundExportData S).lookup (natToStr i) = some (S.get ⟨i, h⟩).name) ∧
    soundExportData [] = [] :=
  ⟨soundExportData_length S, soundExportData_keys S,
    fun i h => soundExportData_lookup S i h, rfl⟩

/-- C1 witness at the spec's example scenario 1. -/
theorem nameIndexProjector_correct_witness :
    (soundExportData [Record.mk "snd_click" none, Record.mk "snd_open" none]).lookup
      (natToStr 1) = some "snd_open" :=
  ((nameIndexProjector_correct
    [Record.mk "snd_click" none, Record.mk "snd_open" none]).2.2.1 1 (by decide)).trans
    (by decide)

/-- C2: the Hierarchy Grouper (`sortedDict` in `ExportObjectTree.csx`) equals
the reference definition — keep exactly the records with non-null parent, group
by parent name, each group's member names sorted ascending by ordinal
comparison, keys emitted sorted ascending by the same comparison — and
consequently no emitted key maps to an empty list. -/
theorem hierarchyGrouper_matches_spec (S : List Record) :
    sortedDict S = hierarchySpec S ∧
    ∀ p, p ∈ sortedDict S → p.2 ≠ [] :=
  ⟨sortedDict_eq_spec S, fun p hp => sortedDict_values_nonempty S p hp⟩

/-- C2 witness at the spec's example scenario 2. -/
theorem hierarchyGrouper_matches_spec_witness :
    sortedDict [Record.mk "obj_enemy" none,
      Record.mk "obj_goblin" (some (Record.mk "obj_enemy" none)),
      Record.mk "obj_orc" (some (Record.mk "obj_enemy" none))] =
    hierarchySpec [Record.mk "obj_enemy" none,
      Record.mk "obj_goblin" (some (Record.mk "obj_enemy" none)),
      Record.mk "obj_orc" (some (Record.mk "obj_enemy" none))] ∧
    (["obj_goblin", "obj_orc"] : List String) ≠ [] :=
  ⟨(hierarchyGrouper_matches_spec _).1,
    (hierarchyGrouper_matches_spec [Record.mk "obj_enemy" none,
      Record.mk "obj_goblin" (some (Record.mk "obj_enemy" none)),
      Record.mk "obj_orc" (some (Record.mk "obj_enemy" none))]).2
      ("obj_enemy", ["obj_goblin", "obj_orc"]) (by decide)⟩

/-- C3: a record whose parent is non-null but has the empty name is grouped
under key `""` (neither dropped nor an error), and records with null parent are
excluded without error — removing them beforehand leaves the output unchanged. -/
theorem hierarchyGrouper_edge_cases :
    (∀ (S : List Record) (r q : Record), r ∈ S → r.parent = some q →
      q.name = "" → ∃ l, (sortedDict S).lookup "" = some l ∧ r.name ∈ l) ∧
    (∀ S : List Record,
      sortedDict S = sortedDict (S.filter (fun r => r.parent.isSome))) := by
  constructor
  · intro S r q hr hq hqname
    have hps : r.parent.isSome = true := by rw [hq]; rfl
    have hkey : parentKey r = "" := by rw [parentKey, hq]; exact hqname
    have h := sortedDict_complete S r hr hps
    rwa [hkey] at h
  · exact sortedDict_filter_invariant

/-- C3 witness: one record whose parent bears the empty name. -/
theorem hierarchyGrouper_edge_cases_witness :
    ∃ l, (sortedDict [Record.mk "child" (some (Record.mk "" none))]).lookup "" = some l ∧
      "child" ∈ l :=
  hierarchyGrouper_edge_cases.1 [Record.mk "child" (some (Record.mk "" none))]
    (Record.mk "child" (some (Record.mk "" none))) (Record.mk "" none)
    (by decide) rfl rfl

/-- C4 counterexample: with a single record whose parent has the empty name the
grouper emits `("", ["child"])`, so a child of an empty-named parent does appear
in the output — the claim that every listed child has a parent with a non-empty
name is false. -/
theorem hierarchyValues_counterexample :
    ¬ (∀ (S : List Record), ∀ p ∈ sortedDict S, ∀ n ∈ p.2,
        ∃ r ∈ S, ∃ q, r.parent = some q ∧ q.name ≠ "" ∧ r.name = n) := by
  intro hcl
  rcases hcl [Record.mk "child" (some (Record.mk "" none))] ("", ["child"])
      (by decide) "child" (by decide) with ⟨r, hrS, q, hpar, hqname, _⟩
  rcases List.mem_singleton.mp hrS with rfl
  rw [Record.parent, Option.some.injEq] at hpar
  subst hpar
  exact hqname rfl

/-- C4 amended: every child name in any value list of the Hierarchy Grouper's
output comes from a record whose parent reference is non-null (the parent's
name may be empty, in which case the child is listed under key `""`). -/
theorem hierarchyValues_from_parented (S : List Record) (p : String × List String)
    (hp : p ∈ sortedDict S) (n : String) (hn : n ∈ p.2) :
    ∃ r, r ∈ S ∧ r.parent.isSome = true ∧ r.name = n :=
  sortedDict_values_from_parented S p hp n hn

/-- C4 amended witness. -/
theorem hierarchyValues_from_parented_witness :
    ∃ r, r ∈ [Record.mk "child" (some (Record.mk "" none))] ∧
      r.parent.isSome = true ∧ r.name = "child" :=
  hierarchyValues_from_parented [Record.mk "child" (some (Record.mk "" none))]
    ("", ["child"]) (by decide) "child" (by decide)

/-- C5: serializing any map with string keys and string or string-list values
with the JSON writer and parsing the text back yields the map unchanged,
key-for-key and value-for-value; non-ASCII characters are emitted literally,
never as `\uXXXX` escapes. -/
theorem jsonWriter_roundtrip :
    (∀ ms : List (String × JVal), parseDoc (serializeJson ms) = some ms) ∧
    (∀ c : Char, 128 ≤ c.toNat → escapeChar c = [c]) := by
  refine ⟨parseDoc_serializeJson, ?_⟩
  intro c hc
  have h1 : ¬ c = '"' := fun h => by subst h; exact absurd hc (by decide)
  have h2 : ¬ c = '\\' := fun h => by subst h; exact absurd hc (by decide)
  have h3 : ¬ c = '\n' := fun h => by subst h; exact absurd hc (by decide)
  have h4 : ¬ c = '\r' := fun h => by subst h; exact absurd hc (by decide)
  have h5 : ¬ c = '\t' := fun h => by subst h; exact absurd hc (by decide)
  have h6 : ¬ c = '\x08' := fun h => by subst h; exact absurd hc (by decide)
  have h7 : ¬ c = '\x0c' := fun h => by subst h; exact absurd hc (by decide)
  have h8 : ¬ c.toNat < 32 := by omega
  rw [escapeChar, if_neg h1, if_neg h2, if_neg h3, if_neg h4, if_neg h5, if_neg h6,
    if_neg h7, if_neg h8]

/-- C5 witness: `é` (U+00E9) is emitted literally. -/
theorem jsonWriter_roundtrip_witness :
    escapeChar (Char.ofNat 233) = [Char.ofNat 233] :=
  jsonWriter_roundtrip.2 (Char.ofNat 233) (by decide)

/-- C6: determinism of the export pipeline — the written text is a pure function
of the input records, so running the same export a second time against the same
input and output path writes byte-identical content: the second run reproduces
exactly the state of the first. Stated for the two cited scripts. -/
theorem exportPipeline_deterministic (y : Bool) (sp cwd : String) (cfg : Bool)
    (dm : Option (Option String)) (S : List Record) (fs : FS) (dirs : List String) :
    runSoundExport y sp cwd cfg dm S (runSoundExport y sp cwd cfg dm S fs dirs).1
      (runSoundExport y sp cwd cfg dm S fs dirs).2 =
      runSoundExport y sp cwd cfg dm S fs dirs ∧
    runTreeExport y sp cwd cfg dm S (runTreeExport y sp cwd cfg dm S fs dirs).1
      (runTreeExport y sp cwd cfg dm S fs dirs).2 =
      runTreeExport y sp cwd cfg dm S fs dirs :=
  ⟨runSoundExport_idem y sp cwd cfg dm S fs dirs,
    runTreeExport_idem y sp cwd cfg dm S fs dirs⟩

/-- C7: `GetMetaOutput` fails when the configuration file is absent, the
`data_meta` key is missing, or its value is null or blank; in each case no
folder is returned, no default is substituted, and a script whose resolver
fails writes nothing. -/
theorem outputPathResolver_errors (sp cwd : String) (dirs : List String)
    (dm : Option (Option String)) (S : List Record) (fs : FS) :
    (∃ e, GetMetaOutput sp cwd false dm dirs = .error e) ∧
    GetMetaOutput sp cwd true none dirs = .error .keyNotFound ∧
    GetMetaOutput sp cwd true (some none) dirs = .error .missingDataMeta ∧
    GetMetaOutput sp cwd true (some (some "")) dirs = .error .missingDataMeta ∧
    (∀ (cfg : Bool) (dm' : Option (Option String)) (e : PathsError),
      GetMetaOutput sp cwd cfg dm' dirs = .error e →
      runSoundExport false sp cwd cfg dm' S fs dirs = (fs, dirs) ∧
      runSpriteExport false sp cwd cfg dm' S fs dirs = (fs, dirs) ∧
      runObjectExport false sp cwd cfg dm' S fs dirs = (fs, dirs) ∧
      runTreeExport false sp cwd cfg dm' S fs dirs = (fs, dirs)) := by
  refine ⟨⟨.fileNotFound (combine (getFullPath (combine (getDirectoryName sp) "..") cwd)
    "paths.json"), by unfold GetMetaOutput; simp⟩, by unfold GetMetaOutput; simp,
    by unfold GetMetaOutput; simp, by unfold GetMetaOutput; simp, ?_⟩
  intro cfg dm' e hG
  refine ⟨?_, ?_, ?_, ?_⟩ <;>
    simp [runSoundExport, runSpriteExport, runObjectExport, runTreeExport, hG]

/-- C7 witness at a concrete missing-key configuration. -/
theorem outputPathResolver_errors_witness :
    GetMetaOutput "/proj/umt_scripts/Export.csx" "/wd" true none [] =
      .error .keyNotFound ∧
    runSoundExport false "/proj/umt_scripts/Export.csx" "/wd" true none []
      (fun _ => none) [] = ((fun _ => none : FS), []) :=
  ⟨(outputPathResolver_errors "/proj/umt_scripts/Export.csx" "/wd" [] none []
      (fun _ => none)).2.1,
    ((outputPathResolver_errors "/proj/umt_scripts/Export.csx" "/wd" [] none []
      (fun _ => none)).2.2.2.2 true none .keyNotFound
      (outputPathResolver_errors "/proj/umt_scripts/Export.csx" "/wd" [] none []
        (fun _ => none)).2.1).1⟩

/-- C8: when the host reports YYC mode, every export script aborts before any
transformation or file write: the file system and the directory set are
returned unchanged, so no output file is created or modified and no partial
map is ever written. -/
theorem yycGuard_aborts (sp cwd : String) (cfg : Bool) (dm : Option (Option String))
    (S : List Record) (fs : FS) (dirs : List String) :
    runSoundExport true sp cwd cfg dm S fs dirs = (fs, dirs) ∧
    runSpriteExport true sp cwd cfg dm S fs dirs = (fs, dirs) ∧
    runObjectExport true sp cwd cfg dm S fs dirs = (fs, dirs) ∧
    runTreeExport true sp cwd cfg dm S fs dirs = (fs, dirs) :=
  ⟨rfl, rfl, rfl, rfl⟩

/-- C9: with a rooted script path whose directory is itself rooted and a
non-blank `data_meta` value, `GetMetaOutput` succeeds; the result does not
depend on the process working directory — a relative value is resolved against
the project root, the parent of the script's directory — the returned path is
absolute, and the directory it names exists in the returned directory set
(created when absent). -/
theorem outputPathResolver_resolution (sp cwd cwd' p : String) (dirs : List String)
    (hroot : isPathRooted sp = true)
    (hdir : isPathRooted (getDirectoryName sp) = true)
    (hne : p.data.isEmpty = false) :
    ∃ f d',
      GetMetaOutput sp cwd true (some (some p)) dirs = .ok (f, d') ∧
      GetMetaOutput sp cwd' true (some (some p)) dirs = .ok (f, d') ∧
      isPathRooted f = true ∧
      f ∈ d' ∧
      f = (if isPathRooted p then p
        else normalizeAbs ((normalizeAbs (getDirectoryName sp ++ "/" ++ "..").data
          ++ "/" ++ p).data)) := by
  have hdots : isPathRooted ".." = false := by decide
  have hcomb : combine (getDirectoryName sp) ".." = getDirectoryName sp ++ "/" ++ ".." := by
    simp [combine, hdots]
  have hargRooted : isPathRooted (getDirectoryName sp ++ "/" ++ "..") = true :=
    isPathRooted_append _ _ (isPathRooted_append _ _ hdir)
  have hrootDir : ∀ c : String, getFullPath (combine (getDirectoryName sp) "..") c =
      normalizeAbs (getDirectoryName sp ++ "/" ++ "..").data := by
    intro c
    rw [hcomb, getFullPath_of_rooted _ _ hargRooted]
  by_cases hp : isPathRooted p = true
  · refine ⟨p, if p ∈ dirs then dirs else p :: dirs, ?_, ?_, hp, ?_, ?_⟩
    · rw [GetMetaOutput_ok_eval sp cwd p dirs hne]
      simp only [hp, if_pos, if_true, reduceIte]
    · rw [GetMetaOutput_ok_eval sp cwd' p dirs hne]
      simp only [hp, if_pos, if_true, reduceIte]
    · by_cases hmem : p ∈ dirs <;> simp [hmem]
    · rw [if_pos hp]
  · have hR : isPathRooted (normalizeAbs (getDirectoryName sp ++ "/" ++ "..").data) = true :=
      isPathRooted_normalizeAbs _
    have hcombp : combine (normalizeAbs (getDirectoryName sp ++ "/" ++ "..").data) p =
        normalizeAbs (getDirectoryName sp ++ "/" ++ "..").data ++ "/" ++ p := by
      simp [combine, hp]
    have hfull : ∀ c : String,
        getFullPath (combine (normalizeAbs (getDirectoryName sp ++ "/" ++ "..").data) p) c =
        normalizeAbs ((normalizeAbs (getDirectoryName sp ++ "/" ++ "..").data
          ++ "/" ++ p).data) := by
      intro c
      rw [hcombp, getFullPath_of_rooted _ _
        (isPathRooted_append _ _ (isPathRooted_append _ _ hR))]
    refine ⟨normalizeAbs ((normalizeAbs (getDirectoryName sp ++ "/" ++ "..").data
        ++ "/" ++ p).data),
      if normalizeAbs ((normalizeAbs (getDirectoryName sp ++ "/" ++ "..").data
        ++ "/" ++ p).data) ∈ dirs then dirs
      else normalizeAbs ((normalizeAbs (getDirectoryName sp ++ "/" ++ "..").data
        ++ "/" ++ p).data) :: dirs, ?_, ?_, isPathRooted_normalizeAbs _, ?_, ?_⟩
    · rw [GetMetaOutput_ok_eval sp cwd p dirs hne]
      simp only [if_neg hp]
      rw [hrootDir cwd, hfull cwd]
    · rw [GetMetaOutput_ok_eval sp cwd' p dirs hne]
      simp only [if_neg hp]
      rw [hrootDir cwd', hfull cwd']
    · by_cases hmem : normalizeAbs ((normalizeAbs (getDirectoryName sp ++ "/" ++ "..").data
        ++ "/" ++ p).data) ∈ dirs
      · rw [if_pos hmem]; exact hmem
      · rw [if_neg hmem]; exact List.mem_cons_self _ _
    · rw [if_neg hp]

/-- C9 witness at a concrete script path and relative `data_meta`. -/
theorem outputPathResolver_resolution_witness :
    ∃ f d',
      GetMetaOutput "/proj/umt_scripts/Export.csx" "/a" true (some (some "meta")) [] =
        .ok (f, d') ∧
      GetMetaOutput "/proj/umt_scripts/Export.csx" "/b" true (some (some "meta")) [] =
        .ok (f, d') ∧
      isPathRooted f = true ∧
      f ∈ d' ∧
      f = (if isPathRooted "meta" then "meta"
        else normalizeAbs ((normalizeAbs (getDirectoryName "/proj/umt_scripts/Export.csx"
          ++ "/" ++ "..").data ++ "/" ++ "meta").data)) :=
  outputPathResolver_resolution "/proj/umt_scripts/Export.csx" "/a" "/b" "meta" []
    (by decide) (by decide) (by decide)

/-- C10: the sound, sprite and game-object index exporters compute the same
projection function of their record source, and the `OrderBy(x => x.Index)`
step is a no-op: the pipeline with the sort produces exactly the dictionary the
pipeline without it would. -/
theorem indexExporters_agree :
    soundExportData = spriteExportData ∧
    spriteExportData = objectExportData ∧
    (∀ S : List Record,
      toDictionary (orderByIndex (selectWithIndex S)) = toDictionary (selectWithIndex S)) :=
  ⟨rfl, rfl, fun S => by rw [orderByIndex_selectWithIndex]⟩

end ModGen
